import Mathlib

/-!
Verification of the Grixo commit-to-social-post pipeline.

Strings from the TypeScript source are modelled as `List Char`; the
generative-text provider, the publisher and the commit source are black
boxes, so their outcomes appear as explicit parameters (`Except` values or
raw response strings).  All definitions below are transcribed from
`src/services/gemini.ts`, `src/services/discord.ts` and
`src/services/github.ts`.
-/

abbrev Str := List Char

set_option maxRecDepth 100000

/-- Whitespace test used by the model of JavaScript `String.prototype.trim`. -/
def wsp (c : Char) : Bool := c.isWhitespace

/-- Model of trimming from the left: drop leading whitespace. -/
def ltrim (s : Str) : Str := s.dropWhile wsp

/-- Model of trimming from the right: drop trailing whitespace. -/
def rtrim (s : Str) : Str := (s.reverse.dropWhile wsp).reverse

/-- Model of JavaScript `s.trim()`. -/
def trim (s : Str) : Str := rtrim (ltrim s)

/-- The double-quote character. -/
def dquo : Char := Char.ofNat 34

/-- The single-quote character. -/
def squo : Char := Char.ofNat 39

/-- Model of the quote-stripping in `generateWithPrompt`
(`if (content.startsWith(q) && content.endsWith(q)) content = content.slice(1, -1)`). -/
def stripWrap (q : Char) (s : Str) : Str :=
  if s.head? = some q ∧ s.getLast? = some q then (s.drop 1).dropLast else s

/-- Model of the response clean-up in `generateWithPrompt` (gemini.ts lines
21-30): trim, strip a wrapping pair of double quotes, strip a wrapping pair
of single quotes, trim again. -/
def cleanResponse (raw : Str) : Str :=
  let c1 := trim raw
  let c2 := stripWrap dquo c1
  let c3 := stripWrap squo c2
  trim c3

/-- Sentence-terminator test for the regex `[^.!?]+[.!?]+` in
`generatePost` (gemini.ts line 117). -/
def isTerm (c : Char) : Bool := c = '.' || c = '!' || c = '?'

/-- One-pass scanner equivalent to `post.match(/[^.!?]+[.!?]+/g) || []`:
`body` is the `[^.!?]+` part and `terms` the `[.!?]+` part of the match
currently being built; a match is emitted when a non-terminator follows a
non-empty terminator run, or at the end of the input. -/
def sentGo : Str → Str → Str → List Str
  | [], _body, terms => if terms = [] then [] else [_body ++ terms]
  | c :: cs, body, terms =>
    if isTerm c then
      if body = [] && terms = [] then sentGo cs [] []
      else sentGo cs body (terms ++ [c])
    else
      if terms = [] then sentGo cs (body ++ [c]) []
      else (body ++ terms) :: sentGo cs [c] []

/-- Model of `post.match(/[^.!?]+[.!?]+/g) || []` (gemini.ts line 117): the
list of maximal sentence-shaped matches, scanned left to right. -/
def splitSentences (s : Str) : List Str := sentGo s [] []

/-- Model of JavaScript `s.split(' ')` (gemini.ts line 131): split on every
single space, preserving empty pieces. -/
def splitSp : Str → List Str
  | [] => [[]]
  | c :: cs =>
    let r := splitSp cs
    if c = ' ' then [] :: r
    else
      match r with
      | [] => [[c]]
      | w :: ws => (c :: w) :: ws

/-- Join a word list with single spaces (inverse of `splitSp`). -/
def joinSp : List Str → Str
  | [] => []
  | [w] => w
  | w :: ws => w ++ ' ' :: joinSp ws

/-- The text that a non-empty word list contributes after an accumulated
piece: a space followed by the joined words. -/
def joinTail : List Str → Str
  | [] => []
  | w :: ws => ' ' :: joinSp (w :: ws)

/-- The sentence-accumulation loop of the truncation fallback (gemini.ts
lines 118-126): `test = truncated + sentence; if (test.length <= max)
truncated = test; else break`. -/
def accSentences (maxLen : Int) : List Str → Str → Str
  | [], acc => acc
  | s :: rest, acc =>
    if ((acc ++ s).length : Int) ≤ maxLen then accSentences maxLen rest (acc ++ s)
    else acc

/-- The word-accumulation loop of the truncation fallback (gemini.ts lines
131-140): `test = truncated + (truncated ? ' ' : '') + word; ...`. -/
def accWords (maxLen : Int) : List Str → Str → Str
  | [], acc => acc
  | w :: rest, acc =>
    let test := acc ++ (if acc = [] then [] else [' ']) ++ w
    if (test.length : Int) ≤ maxLen then accWords maxLen rest test
    else acc

/-- The deterministic truncation fallback of `generatePost` (gemini.ts
lines 114-143): accumulate whole sentences while they fit; if no sentence
was kept, accumulate space-separated words instead; trim the result. -/
def truncatePost (post : Str) (maxLen : Int) : Str :=
  let t := accSentences maxLen (splitSentences post) []
  if t ≠ [] then trim t
  else trim (accWords maxLen (splitSp post) [])

/-- JavaScript truthiness of an optional string (`undefined`, `null` and
the empty string are falsy). -/
def optTruthy (o : Option Str) : Bool :=
  match o with
  | none => false
  | some s => !s.isEmpty

/-- The prefix computed by `generatePost` (gemini.ts line 51):
`projectName ? projectName + " Updates\n\n" : ''`. -/
def mkPfx (projectName : Option Str) : Str :=
  if optTruthy projectName then (projectName.getD []) ++ (" Updates\n\n").toList
  else []

/-- Model of `generatePost` (gemini.ts lines 49-151).  The provider is a
black box, so the two responses it may return (to the primary prompt and
to the stricter retry prompt) are the parameters `raw1` and `raw2`; each
is cleaned by `generateWithPrompt` and trimmed by the caller.  If the
first cleaned response exceeds `characterLimit - prefix.length` the second
is used; if that still exceeds the budget the deterministic truncation
fallback runs; finally the prefix is prepended when a project name was
supplied. -/
def generatePost (characterLimit : Nat) (projectName : Option Str) (raw1 raw2 : Str) : Str :=
  let pfx := mkPfx projectName
  let maxPostLength : Int := (characterLimit : Int) - (pfx.length : Int)
  let p1 := trim (cleanResponse raw1)
  let p2 := if (p1.length : Int) > maxPostLength then trim (cleanResponse raw2) else p1
  let p3 := if (p2.length : Int) > maxPostLength then truncatePost p2 maxPostLength else p2
  if optTruthy projectName then pfx ++ p3 else p3

/-- A file-level change of a commit (`CommitFile` in github.ts). -/
structure FileChange where
  filename : Str
  status : Str
  additions : Nat
  deletions : Nat
deriving DecidableEq

/-- A fetched commit (`CommitInfo` in github.ts): short hash, first message
line, rendered date, web URL, owning repository, optional file list. -/
structure CommitInfo where
  sha : Str
  message : Str
  date : Str
  url : Str
  repo : Str
  files : Option (List FileChange)
deriving DecidableEq

/-- Per-session state (`UserState` in discord.ts lines 6-13).  The
TypeScript optional `pendingPost?: boolean` is falsy when absent, so it is
modelled as a `Bool` that is `false` where the source leaves it unset. -/
structure UserState where
  commits : List CommitInfo
  selectedCommits : List CommitInfo
  generatedSummary : Option Str
  generatedPost : Option Str
  projectName : Option Str
  pendingPost : Bool
deriving DecidableEq

/-- The session map `userStates` and the watermark map `lastCheckedCommits`
are JavaScript `Map`s; both are modelled as association lists. -/
abbrev SMap := List (Str × UserState)

/-- `Map.get`: the value stored at a key, if any. -/
def mget {α : Type} : List (Str × α) → Str → Option α
  | [], _ => none
  | (k0, v) :: rest, k => if k0 = k then some v else mget rest k

/-- `Map.set`: replace the binding of a key, or append a new one. -/
def mset {α : Type} : List (Str × α) → Str → α → List (Str × α)
  | [], k, v => [(k, v)]
  | (k0, v0) :: rest, k, v =>
    if k0 = k then (k, v) :: rest else (k0, v0) :: mset rest k v

/-- `Map.delete`: remove the binding of a key. -/
def mdel {α : Type} : List (Str × α) → Str → List (Str × α)
  | [], _ => []
  | (k0, v0) :: rest, k => if k0 = k then rest else (k0, v0) :: mdel rest k

/-- The synthetic session key for background auto-drafts
(discord.ts line 86 and 312: the channel id prefixed with a marker). -/
def autoKey (chan : Str) : Str := ("auto-").toList ++ chan

/-- JavaScript capitalisation used for project names (discord.ts line 79):
`name.charAt(0).toUpperCase() + name.slice(1).toLowerCase()`. -/
def capitalize (s : Str) : Str :=
  match s with
  | [] => []
  | c :: cs => c.toUpper :: cs.map Char.toLower

/-- Project-name derivation (discord.ts lines 77-79 and 273-275):
`repo.split('/')[1] || defaultProjectName`, capitalised; an absent or empty
second path segment falls back to the configured default. -/
def projectOf (sel : List CommitInfo) (dflt : Str) : Str :=
  let rn :=
    match sel.head? with
    | some c =>
      match (c.repo.splitOn '/').get? 1 with
      | some r => if r = [] then dflt else r
      | none => dflt
    | none => dflt
  capitalize rn

/-- Result of the `!run` command handler. -/
inductive RunOut
  | fetchErr (e : Str)
  | noCommits
  | listed
deriving DecidableEq

/-- Model of the `!run` handler (discord.ts lines 189-231): fetch the
five latest commits (outcome `fetchRes`); on success store a fresh session
with no selection, no summary, no post and `pendingPost = false`. -/
def runCmd (m : SMap) (uid : Str) (fetchRes : Except Str (List CommitInfo)) : SMap × RunOut :=
  match fetchRes with
  | Except.error e => (m, RunOut.fetchErr e)
  | Except.ok commits =>
    if commits = [] then (m, RunOut.noCommits)
    else
      (mset m uid
        { commits := commits, selectedCommits := [], generatedSummary := none,
          generatedPost := none, projectName := none, pendingPost := false },
       RunOut.listed)

/-- The index filter of the `!repo` handler (discord.ts line 243): each
comma-separated token is `parseInt`ed (`none` models `NaN`), one is
subtracted, and out-of-range values are dropped. -/
def selIndices (tokens : List (Option Int)) (n : Nat) : List Int :=
  tokens.filterMap (fun t =>
    match t with
    | none => none
    | some k =>
      if 0 ≤ k - 1 ∧ k - 1 < (n : Int) then some (k - 1) else none)

/-- Result of the `!repo` command handler. -/
inductive SelOut
  | noSession
  | invalidSel
  | sumErr (e : Str)
  | postErr (e : Str)
  | drafted
deriving DecidableEq

/-- Model of the `!repo` handler (discord.ts lines 234-304).  The session
object is mutated in place, so every assignment that precedes a failing
external call is already visible in the stored state: `selectedCommits`
and `pendingPost := false` are written before the summarizer runs, and
`generatedSummary` and `projectName` are written before the composer runs.
`sumRes` is the summarizer outcome and `postRes` the composer outcome. -/
def selectCmd (m : SMap) (uid : Str) (tokens : List (Option Int))
    (sumRes postRes : Except Str Str) (dflt : Str) : SMap × SelOut :=
  match mget m uid with
  | none => (m, SelOut.noSession)
  | some st =>
    if st.commits = [] then (m, SelOut.noSession)
    else
      let idxs := selIndices tokens st.commits.length
      if idxs = [] then (m, SelOut.invalidSel)
      else
        let sel := idxs.filterMap (fun i => st.commits.get? i.toNat)
        let st1 := { st with selectedCommits := sel, pendingPost := false }
        match sumRes with
        | Except.error e => (mset m uid st1, SelOut.sumErr e)
        | Except.ok summary =>
          let st2 := { st1 with generatedSummary := some summary }
          let st3 := { st2 with projectName := some (projectOf sel dflt) }
          match postRes with
          | Except.error e => (mset m uid st3, SelOut.postErr e)
          | Except.ok post =>
            (mset m uid { st3 with generatedPost := some post, pendingPost := true },
             SelOut.drafted)

/-- Result of the `!redo` command handler. -/
inductive RedoOut
  | noPost
  | cannotRegen
  | genErr (e : Str)
  | regenerated
deriving DecidableEq

/-- Model of `regeneratePost` (discord.ts lines 389-401): requires a
truthy summary and project name; on composer success stores a new post and
sets `pendingPost`; a composer failure propagates to the caller's catch,
leaving the session untouched. -/
def regen (m : SMap) (key : Str) (st : UserState) (postRes : Except Str Str) :
    SMap × RedoOut :=
  if !(optTruthy st.generatedSummary) || !(optTruthy st.projectName) then
    (m, RedoOut.cannotRegen)
  else
    match postRes with
    | Except.error e => (m, RedoOut.genErr e)
    | Except.ok p =>
      (mset m key { st with generatedPost := some p, pendingPost := true },
       RedoOut.regenerated)

/-- The auto-session fallback of the `!redo` handler (discord.ts lines
311-317). -/
def redoAuto (m : SMap) (chan : Str) (postRes : Except Str Str) : SMap × RedoOut :=
  match mget m (autoKey chan) with
  | some ast =>
    if optTruthy ast.generatedSummary then regen m (autoKey chan) ast postRes
    else (m, RedoOut.noPost)
  | none => (m, RedoOut.noPost)

/-- Model of the `!redo` handler (discord.ts lines 307-328): use the
user-keyed session if it has a truthy summary, else fall back to the
channel's auto session. -/
def redoCmd (m : SMap) (uid chan : Str) (postRes : Except Str Str) : SMap × RedoOut :=
  match mget m uid with
  | some st =>
    if optTruthy st.generatedSummary then regen m uid st postRes
    else redoAuto m chan postRes
  | none => redoAuto m chan postRes

/-- Result of the `!no` command handler. -/
inductive NoOut
  | discarded
  | nothingToDiscard
deriving DecidableEq

/-- The auto-session fallback of the `!no` handler (discord.ts lines
335-344): an auto session is discarded if it merely exists. -/
def noAuto (m : SMap) (chan : Str) : SMap × NoOut :=
  match mget m (autoKey chan) with
  | some _ => (mdel m (autoKey chan), NoOut.discarded)
  | none => (m, NoOut.nothingToDiscard)

/-- Model of the `!no` handler (discord.ts lines 331-354): delete the
user-keyed session when it has a truthy generated post, else fall back to
the channel's auto session. -/
def noCmd (m : SMap) (uid chan : Str) : SMap × NoOut :=
  match mget m uid with
  | some st =>
    if optTruthy st.generatedPost then (mdel m uid, NoOut.discarded)
    else noAuto m chan
  | none => noAuto m chan

/-- Result of the `!post` command handler. -/
inductive PostOut
  | noPost
  | posted
  | pubFailed (e : Str)
deriving DecidableEq

/-- Outcome of the `!post` handler: the resulting session map, the
user-visible result, and the text handed to the publisher (`none` when the
publisher was never called). -/
structure PostRes where
  sessions : SMap
  out : PostOut
  sentToPublisher : Option Str
deriving DecidableEq

/-- The auto-session branch of the `!post` handler (discord.ts lines
360-374): publish the auto session's post; deletion happens only after the
publisher returned successfully. -/
def postAuto (m : SMap) (chan : Str) (pubRes : Except Str Unit) : PostRes :=
  match mget m (autoKey chan) with
  | some ast =>
    if optTruthy ast.generatedPost then
      match pubRes with
      | Except.ok _ => ⟨mdel m (autoKey chan), PostOut.posted, ast.generatedPost⟩
      | Except.error e => ⟨m, PostOut.pubFailed e, ast.generatedPost⟩
    else ⟨m, PostOut.noPost, none⟩
  | none => ⟨m, PostOut.noPost, none⟩

/-- Model of the `!post` handler (discord.ts lines 357-386).  The session
is resolved user-key first, falling back to the channel's auto session;
the gate is a truthy `generatedPost`.  The publisher outcome is `pubRes`;
a throw is caught after the call, so the session survives a failure and is
deleted only on success. -/
def postCmd (m : SMap) (uid chan : Str) (pubRes : Except Str Unit) : PostRes :=
  match mget m uid with
  | some st =>
    if optTruthy st.generatedPost then
      match pubRes with
      | Except.ok _ => ⟨mdel m uid, PostOut.posted, st.generatedPost⟩
      | Except.error e => ⟨m, PostOut.pubFailed e, st.generatedPost⟩
    else postAuto m chan pubRes
  | none => postAuto m chan pubRes

/-- The session key and state resolved by the `!post` handler, if any:
the user-keyed session when its `generatedPost` is truthy, else the
channel's auto session when its `generatedPost` is truthy. -/
def resolveAuto (m : SMap) (chan : Str) : Option (Str × UserState) :=
  match mget m (autoKey chan) with
  | some ast => if optTruthy ast.generatedPost then some (autoKey chan, ast) else none
  | none => none

/-- Resolution order of publish/discard commands: user-keyed session
first, channel auto session second (discord.ts lines 359-364). -/
def resolvePost (m : SMap) (uid chan : Str) : Option (Str × UserState) :=
  match mget m uid with
  | some st => if optTruthy st.generatedPost then some (uid, st) else resolveAuto m chan
  | none => resolveAuto m chan

/-- Model of `processNewCommit` (discord.ts lines 64-104): summarize, pick
a project name, compose, then store the auto session with `pendingPost`
and announce it.  Any failure is caught inside, so nothing is stored and
the poller continues.  Returns the new session map and whether a draft was
stored and announced. -/
def processNewCommit (m : SMap) (chan : Str) (c : CommitInfo)
    (sumRes postRes : Except Str Str) (dflt : Str) : SMap × Bool :=
  match sumRes with
  | Except.error _ => (m, false)
  | Except.ok summary =>
    match postRes with
    | Except.error _ => (m, false)
    | Except.ok post =>
      (mset m (autoKey chan)
        { commits := [c], selectedCommits := [c], generatedSummary := some summary,
          generatedPost := some post, projectName := some (projectOf [c] dflt),
          pendingPost := true },
       true)

/-- Result of one poll tick: the new watermark map, the new session map,
the repositories for which a draft attempt (`processNewCommit`) was made,
and the repositories for which a draft was actually stored and announced. -/
structure TickOut where
  wm : List (Str × Str)
  sessions : SMap
  attempts : List Str
  announced : List Str
deriving DecidableEq

/-- The per-commit loop of `checkForNewCommits` (discord.ts lines 46-58):
when the stored watermark is absent or differs from the observed hash, the
watermark is set first; a draft attempt is made only when a watermark was
already present.  `res` gives the black-box summarizer/composer outcomes
for a commit. -/
def tickGo (chan dflt : Str) (res : CommitInfo → Except Str Str × Except Str Str) :
    List CommitInfo → List (Str × Str) → SMap → TickOut
  | [], wm, m => ⟨wm, m, [], []⟩
  | c :: cs, wm, m =>
    match mget wm c.repo with
    | none => tickGo chan dflt res cs (mset wm c.repo c.sha) m
    | some lastSha =>
      if lastSha = c.sha then tickGo chan dflt res cs wm m
      else
        let pr := processNewCommit m chan c (res c).1 (res c).2 dflt
        let out := tickGo chan dflt res cs (mset wm c.repo c.sha) pr.1
        ⟨out.wm, out.sessions, c.repo :: out.attempts,
         (if pr.2 then [c.repo] else []) ++ out.announced⟩

/-- One tick of the background poller over the observed latest commits. -/
def tick (chan dflt : Str) (res : CommitInfo → Except Str Str × Except Str Str)
    (observed : List CommitInfo) (wm : List (Str × Str)) (m : SMap) : TickOut :=
  tickGo chan dflt res observed wm m

/-- The per-state invariant of claim C7: a pending post implies a stored
generated post. -/
def ValOk (st : UserState) : Prop := st.pendingPost = true → st.generatedPost ≠ none

/-- The session-map invariant: every stored state satisfies `ValOk`. -/
def MInv (m : SMap) : Prop := ∀ p ∈ m, ValOk p.2

/-- Session maps reachable from the empty startup state by any sequence of
command-handler and poller-tick steps, with arbitrary black-box
outcomes. -/
inductive Reach : SMap → Prop
  | init : Reach []
  | runStep (m : SMap) (uid : Str) (fr : Except Str (List CommitInfo)) :
      Reach m → Reach (runCmd m uid fr).1
  | selStep (m : SMap) (uid : Str) (tokens : List (Option Int))
      (sr pr : Except Str Str) (dflt : Str) :
      Reach m → Reach (selectCmd m uid tokens sr pr dflt).1
  | redoStep (m : SMap) (uid chan : Str) (pr : Except Str Str) :
      Reach m → Reach (redoCmd m uid chan pr).1
  | noStep (m : SMap) (uid chan : Str) :
      Reach m → Reach (noCmd m uid chan).1
  | postStep (m : SMap) (uid chan : Str) (pub : Except Str Unit) :
      Reach m → Reach (postCmd m uid chan pub).sessions
  | tickStep (m : SMap) (wm : List (Str × Str)) (chan dflt : Str)
      (res : CommitInfo → Except Str Str × Except Str Str) (obs : List CommitInfo) :
      Reach m → Reach (tick chan dflt res obs wm m).sessions

/-- Test fixture: a first sample commit. -/
def cA : CommitInfo :=
  { sha := ("abc1234").toList, message := ("fix parser crash").toList,
    date := ("1/1/2024").toList, url := ("u1").toList,
    repo := ("alice/grixo").toList, files := none }

/-- Test fixture: a second sample commit. -/
def cB : CommitInfo :=
  { sha := ("def5678").toList, message := ("add dark mode").toList,
    date := ("1/2/2024").toList, url := ("u2").toList,
    repo := ("alice/webapp").toList, files := none }

/-- Test fixture: a user id. -/
def uA : Str := ("user1").toList

/-- Test fixture: a channel id. -/
def chA : Str := ("chan1").toList

/-- Test fixture: the default project name. -/
def dfltA : Str := ("Project").toList

/-- Session map after a successful `!run` for `uA`. -/
def mRun : SMap := (runCmd [] uA (Except.ok [cA, cB])).1

/-- The session stored by that `!run`. -/
def stListed : UserState :=
  { commits := [cA, cB], selectedCommits := [], generatedSummary := none,
    generatedPost := none, projectName := none, pendingPost := false }

/-- Session map after a successful `!repo 1` for `uA`. -/
def mSel : SMap :=
  (selectCmd mRun uA [some 1] (Except.ok (("sum1").toList))
    (Except.ok (("post1").toList)) dfltA).1

/-- The session stored by that `!repo 1`. -/
def stSel : UserState :=
  { commits := [cA, cB], selectedCommits := [cA],
    generatedSummary := some (("sum1").toList),
    generatedPost := some (("post1").toList),
    projectName := some (("Grixo").toList), pendingPost := true }

/-- Session map after a later `!repo 2` for `uA` whose summarizer call
failed. -/
def mSelFail : SMap :=
  (selectCmd mSel uA [some 2] (Except.error (("boom").toList))
    (Except.ok (("postX").toList)) dfltA).1

/-- The session stored after that failed `!repo 2`: the selection was
replaced and `pendingPost` cleared before the summarizer ran, while the
old summary and post survive. -/
def stSelFail : UserState :=
  { commits := [cA, cB], selectedCommits := [cB],
    generatedSummary := some (("sum1").toList),
    generatedPost := some (("post1").toList),
    projectName := some (("Grixo").toList), pendingPost := false }

/-- Test fixture: an empty watermark map. -/
def wmA : List (Str × Str) := []

/-- Test fixture: a watermark map holding an older hash for `cA`'s
repository. -/
def wmB : List (Str × Str) := [(("alice/grixo").toList, ("0000000").toList)]

/-- Test fixture: provider outcomes that always succeed. -/
def resOk : CommitInfo → Except Str Str × Except Str Str :=
  fun _ => (Except.ok (("su").toList), Except.ok (("po").toList))

/-- A text ends at a sentence boundary when its last character is one of
the sentence terminators `.`, `!`, `?`. -/
def endsTerm (l : Str) : Bool :=
  match l.reverse with
  | [] => false
  | c :: _ => isTerm c

/-- A truncation result `r` ends at a word boundary of `post` when it is
empty, or it is a prefix of `post` that is followed by nothing or by a
whitespace character. -/
def wordBoundary (post r : Str) : Prop :=
  r = [] ∨ ∃ rest, post = r ++ rest ∧
    (rest = [] ∨ ∃ c rest2, rest = c :: rest2 ∧ wsp c = true)


theorem length_dropWhile_le (p : Char → Bool) (l : Str) :
    (l.dropWhile p).length ≤ l.length := by
  induction l with
  | nil => simp
  | cons c cs ih =>
    by_cases h : p c
    · rw [List.dropWhile_cons_of_pos h]; exact Nat.le_succ_of_le ih
    · rw [List.dropWhile_cons_of_neg h]

theorem ltrim_length_le (s : Str) : (ltrim s).length ≤ s.length :=
  length_dropWhile_le wsp s

theorem rtrim_length_le (s : Str) : (rtrim s).length ≤ s.length := by
  unfold rtrim
  rw [List.length_reverse]
  calc (s.reverse.dropWhile wsp).length ≤ s.reverse.length := length_dropWhile_le wsp s.reverse
    _ = s.length := List.length_reverse s

theorem trim_length_le (s : Str) : (trim s).length ≤ s.length :=
  Nat.le_trans (rtrim_length_le (ltrim s)) (ltrim_length_le s)

theorem accSentences_bound (maxLen : Int) (ss : List Str) (acc : Str) :
    accSentences maxLen ss acc = acc ∨
      ((accSentences maxLen ss acc).length : Int) ≤ maxLen := by
  induction ss generalizing acc with
  | nil => exact Or.inl rfl
  | cons s rest ih =>
    rw [accSentences]
    split
    · rcases ih (acc ++ s) with h | h
      · right; rw [h]; assumption
      · right; exact h
    · exact Or.inl rfl

theorem accWords_bound (maxLen : Int) (ws : List Str) (acc : Str) :
    accWords maxLen ws acc = acc ∨
      ((accWords maxLen ws acc).length : Int) ≤ maxLen := by
  induction ws generalizing acc with
  | nil => exact Or.inl rfl
  | cons w rest ih =>
    rw [accWords]
    by_cases hl : (((acc ++ (if acc = [] then [] else [' ']) ++ w)).length : Int) ≤ maxLen
    · rw [if_pos hl]
      rcases ih (acc ++ (if acc = [] then [] else [' ']) ++ w) with h | h
      · right; rw [h]; exact hl
      · right; exact h
    · rw [if_neg hl]; exact Or.inl rfl

theorem trim_length_le_int (s : Str) : ((trim s).length : Int) ≤ (s.length : Int) := by
  exact_mod_cast trim_length_le s

theorem truncatePost_le (post : Str) (maxLen : Int) (h0 : 0 ≤ maxLen) :
    ((truncatePost post maxLen).length : Int) ≤ maxLen := by
  simp only [truncatePost]
  split
  · rename_i ht
    rcases accSentences_bound maxLen (splitSentences post) [] with h | h
    · exact absurd h ht
    · exact le_trans (trim_length_le_int _) h
  · rcases accWords_bound maxLen (splitSp post) [] with h | h
    · rw [h]; simpa using h0
    · exact le_trans (trim_length_le_int _) h

/-- Claim C1: for every pair of provider responses and every summary, the
post text returned by `generatePost` has length at most `characterLimit`;
when a project name is supplied the returned text is the prefix followed
by the generated content, so prefix and content together stay within
`characterLimit`, provided the prefix itself fits within the limit. -/
theorem claim_C1 (characterLimit : Nat) (projectName : Option Str) (raw1 raw2 : Str)
    (hpfx : (mkPfx projectName).length ≤ characterLimit) :
    (generatePost characterLimit projectName raw1 raw2).length ≤ characterLimit := by
  have h0 : (0 : Int) ≤ (characterLimit : Int) - ((mkPfx projectName).length : Int) := by
    omega
  have hb : ∀ p2 : Str,
      ((if (p2.length : Int) > (characterLimit : Int) - ((mkPfx projectName).length : Int) then
          truncatePost p2 ((characterLimit : Int) - ((mkPfx projectName).length : Int))
        else p2).length : Int) ≤
        (characterLimit : Int) - ((mkPfx projectName).length : Int) := by
    intro p2
    split
    · exact truncatePost_le _ _ h0
    · omega
  simp only [generatePost]
  split
  · rw [List.length_append]
    have := hb (if ((trim (cleanResponse raw1)).length : Int) >
        (characterLimit : Int) - ((mkPfx projectName).length : Int) then
      trim (cleanResponse raw2) else trim (cleanResponse raw1))
    omega
  · have := hb (if ((trim (cleanResponse raw1)).length : Int) >
        (characterLimit : Int) - ((mkPfx projectName).length : Int) then
      trim (cleanResponse raw2) else trim (cleanResponse raw1))
    omega

/-- Witness for C1 at a concrete limit, project name and pair of provider
responses. -/
theorem claim_C1_witness :
    (mkPfx (some ("Grixo".toList))).length ≤ 20 ∧
      (generatePost 20 (some ("Grixo".toList)) ("hello world this is long".toList)
        ("ok. done.".toList)).length ≤ 20 :=
  ⟨by decide,
   claim_C1 20 (some ("Grixo".toList)) ("hello world this is long".toList)
     ("ok. done.".toList) (by decide)⟩

theorem isTerm_not_wsp (c : Char) (h : isTerm c = true) : wsp c = false := by
  simp only [isTerm, Bool.or_eq_true, decide_eq_true_eq] at h
  rcases h with (h | h) | h <;> subst h <;> decide

theorem endsTerm_ne_nil (l : Str) (h : endsTerm l = true) : l ≠ [] := by
  intro he
  subst he
  simp [endsTerm] at h

theorem endsTerm_append (b t : Str) (ht : t ≠ []) : endsTerm (b ++ t) = endsTerm t := by
  unfold endsTerm
  rw [List.reverse_append]
  cases hr : t.reverse with
  | nil =>
    exact absurd (by simpa using congrArg List.reverse hr) ht
  | cons c cs => simp

theorem endsTerm_singleton (c : Char) : endsTerm [c] = isTerm c := rfl

theorem sentGo_endsTerm (s : Str) : ∀ body terms,
    (terms = [] ∨ endsTerm terms = true) →
    ∀ x ∈ sentGo s body terms, endsTerm x = true := by
  induction s with
  | nil =>
    intro body terms hinv x hx
    rw [sentGo] at hx
    split at hx
    · simp at hx
    · rename_i hterms
      simp only [List.mem_singleton] at hx
      subst hx
      rw [endsTerm_append _ _ hterms]
      rcases hinv with h | h
      · exact absurd h hterms
      · exact h
  | cons c cs ih =>
    intro body terms hinv x hx
    rw [sentGo] at hx
    split at hx
    · rename_i hc
      split at hx
      · exact ih [] [] (Or.inl rfl) x hx
      · refine ih body (terms ++ [c]) ?_ x hx
        right
        rw [endsTerm_append terms [c] (by simp), endsTerm_singleton]
        exact hc
    · split at hx
      · exact ih (body ++ [c]) [] (Or.inl rfl) x hx
      · rename_i hterms
        rcases List.mem_cons.mp hx with hx | hx
        · subst hx
          rw [endsTerm_append _ _ hterms]
          rcases hinv with h | h
          · exact absurd h hterms
          · exact h
        · exact ih [c] [] (Or.inl rfl) x hx

theorem splitSentences_endsTerm (s : Str) :
    ∀ x ∈ splitSentences s, endsTerm x = true :=
  sentGo_endsTerm s [] [] (Or.inl rfl)

theorem accSentences_cases (maxLen : Int) (ss : List Str) (acc : Str)
    (hss : ∀ x ∈ ss, endsTerm x = true) :
    accSentences maxLen ss acc = acc ∨
      endsTerm (accSentences maxLen ss acc) = true := by
  induction ss generalizing acc with
  | nil => exact Or.inl rfl
  | cons s rest ih =>
    rw [accSentences]
    split
    · rcases ih (acc ++ s) (fun x hx => hss x (List.mem_cons_of_mem _ hx)) with h | h
      · right
        rw [h, endsTerm_append _ _ (endsTerm_ne_nil s (hss s (List.mem_cons_self _ _)))]
        exact hss s (List.mem_cons_self _ _)
      · exact Or.inr h
    · exact Or.inl rfl

theorem accSentences_ne_nil (maxLen : Int) (ss : List Str) (acc : Str) (h : acc ≠ []) :
    accSentences maxLen ss acc ≠ [] := by
  induction ss generalizing acc with
  | nil => exact h
  | cons s rest ih =>
    rw [accSentences]
    split
    · apply ih
      intro hc
      rw [List.append_eq_nil] at hc
      exact h hc.1
    · exact h

theorem ltrim_cons_of_not (c : Char) (l : Str) (h : wsp c = false) :
    ltrim (c :: l) = c :: l := by
  simp only [ltrim]
  rw [List.dropWhile_cons_of_neg (by simp [h])]

theorem ltrim_append_last (ys : Str) (c : Char) (hc : wsp c = false) :
    ltrim (ys ++ [c]) = ltrim ys ++ [c] := by
  induction ys with
  | nil =>
    simp only [List.nil_append]
    rw [ltrim_cons_of_not c [] hc]
    rfl
  | cons y ys2 ih =>
    by_cases hy : wsp y = true
    · simp only [List.cons_append, ltrim, List.dropWhile_cons_of_pos hy]
      exact ih
    · simp only [List.cons_append, ltrim,
        List.dropWhile_cons_of_neg (by simp [Bool.not_eq_true] at hy ⊢; exact hy)]

theorem rtrim_append_last (zs : Str) (c : Char) (hc : wsp c = false) :
    rtrim (zs ++ [c]) = zs ++ [c] := by
  unfold rtrim
  rw [List.reverse_append]
  simp only [List.reverse_cons, List.reverse_nil, List.nil_append, List.singleton_append]
  rw [List.dropWhile_cons_of_neg (by simp [Bool.not_eq_true]; exact hc)]
  simp

theorem trim_append_last (ys : Str) (c : Char) (hc : wsp c = false) :
    trim (ys ++ [c]) = ltrim ys ++ [c] := by
  unfold trim
  rw [ltrim_append_last ys c hc, rtrim_append_last (ltrim ys) c hc]

theorem exists_last_of_endsTerm (l : Str) (h : endsTerm l = true) :
    ∃ ys c, l = ys ++ [c] ∧ isTerm c = true := by
  unfold endsTerm at h
  cases hr : l.reverse with
  | nil => rw [hr] at h; simp at h
  | cons c cs =>
    rw [hr] at h
    refine ⟨cs.reverse, c, ?_, h⟩
    have h2 : l.reverse.reverse = (c :: cs).reverse := by rw [hr]
    simpa using h2

theorem trim_endsTerm (l : Str) (h : endsTerm l = true) :
    endsTerm (trim l) = true ∧ trim l ≠ [] := by
  obtain ⟨ys, c, rfl, hc⟩ := exists_last_of_endsTerm l h
  rw [trim_append_last ys c (isTerm_not_wsp c hc)]
  constructor
  · rw [endsTerm_append _ _ (by simp), endsTerm_singleton]
    exact hc
  · simp

theorem splitSp_ne_nil (s : Str) : splitSp s ≠ [] := by
  cases s with
  | nil => simp [splitSp]
  | cons c cs =>
    simp only [splitSp]
    by_cases hc : c = ' '
    · simp [hc]
    · rw [if_neg hc]
      cases splitSp cs <;> simp

theorem joinSp_cons (w : Str) (ws : List Str) :
    joinSp (w :: ws) = w ++ joinTail ws := by
  cases ws <;> simp [joinSp, joinTail]

theorem joinSp_splitSp (s : Str) : joinSp (splitSp s) = s := by
  induction s with
  | nil => rfl
  | cons c cs ih =>
    simp only [splitSp]
    by_cases hc : c = ' '
    · rw [if_pos hc]
      cases hr : splitSp cs with
      | nil => exact absurd hr (splitSp_ne_nil cs)
      | cons w ws =>
        have hj : joinSp ([] :: w :: ws) = ' ' :: joinSp (w :: ws) := by simp [joinSp]
        rw [hc, hj, ← hr, ih]
    · rw [if_neg hc]
      cases hr : splitSp cs with
      | nil => exact absurd hr (splitSp_ne_nil cs)
      | cons w ws =>
        have hj : joinSp ((c :: w) :: ws) = c :: joinSp (w :: ws) := by
          cases ws <;> simp [joinSp]
        rw [hj, ← hr, ih]

theorem splitSp_cons_of_ne (c : Char) (cs : Str) (hc : ¬ c = ' ') :
    ∃ w ws, splitSp (c :: cs) = (c :: w) :: ws ∧ splitSp cs = w :: ws := by
  simp only [splitSp]
  rw [if_neg hc]
  cases hr : splitSp cs with
  | nil => exact absurd hr (splitSp_ne_nil cs)
  | cons w ws => exact ⟨w, ws, rfl, rfl⟩

theorem accWords_ext (maxLen : Int) (ws : List Str) (acc : Str) :
    ∃ ext, accWords maxLen ws acc = acc ++ ext := by
  induction ws generalizing acc with
  | nil => exact ⟨[], by simp [accWords]⟩
  | cons w rest ih =>
    rw [accWords]
    by_cases hl : (((acc ++ (if acc = [] then [] else [' ']) ++ w)).length : Int) ≤ maxLen
    · rw [if_pos hl]
      obtain ⟨ext, he⟩ := ih (acc ++ (if acc = [] then [] else [' ']) ++ w)
      exact ⟨(if acc = [] then [] else [' ']) ++ w ++ ext, by rw [he]; simp⟩
    · rw [if_neg hl]
      exact ⟨[], by simp⟩

theorem accWords_wb (post : Str) (maxLen : Int) (ws : List Str) :
    ∀ acc, acc ≠ [] → post = acc ++ joinTail ws →
      ∃ rest, post = accWords maxLen ws acc ++ rest ∧
        (rest = [] ∨ ∃ c r2, rest = c :: r2 ∧ wsp c = true) := by
  induction ws with
  | nil =>
    intro acc _ hp
    refine ⟨[], ?_, Or.inl rfl⟩
    rw [accWords]
    simpa [joinTail] using hp
  | cons w rest ih =>
    intro acc ha hp
    rw [accWords]
    have hsep : (if acc = [] then ([] : Str) else [' ']) = [' '] := if_neg ha
    have hjoin : acc ++ joinTail (w :: rest) = (acc ++ [' '] ++ w) ++ joinTail rest := by
      rw [joinTail, joinSp_cons]
      simp
    by_cases hl : (((acc ++ (if acc = [] then [] else [' ']) ++ w)).length : Int) ≤ maxLen
    · rw [if_pos hl]
      rw [hsep]
      apply ih (acc ++ [' '] ++ w)
      · simp
      · rw [hp, hjoin]
    · rw [if_neg hl]
      refine ⟨joinTail (w :: rest), hp, Or.inr ?_⟩
      exact ⟨' ', joinSp (w :: rest), rfl, by decide⟩

theorem rtrim_decomp (l : Str) :
    ∃ t, l = rtrim l ++ t ∧ ∀ x ∈ t, wsp x = true := by
  refine ⟨(l.reverse.takeWhile wsp).reverse, ?_, ?_⟩
  · unfold rtrim
    have h := List.takeWhile_append_dropWhile wsp l.reverse
    calc l = l.reverse.reverse := by simp
      _ = (l.reverse.takeWhile wsp ++ l.reverse.dropWhile wsp).reverse := by rw [h]
      _ = (l.reverse.dropWhile wsp).reverse ++ (l.reverse.takeWhile wsp).reverse := by
          rw [List.reverse_append]
  · intro x hx
    rw [List.mem_reverse] at hx
    exact List.mem_takeWhile_imp hx

theorem trim_eq_rtrim_of_head (c : Char) (l : Str) (h : wsp c = false) :
    trim (c :: l) = rtrim (c :: l) := by
  unfold trim
  rw [ltrim_cons_of_not c l h]

theorem trim_head_not_wsp (c : Char) (cs : Str) (h : trim (c :: cs) = c :: cs) :
    wsp c = false := by
  by_contra hw
  rw [Bool.not_eq_false] at hw
  have h1 : (ltrim (c :: cs)).length ≤ cs.length := by
    simp only [ltrim, List.dropWhile_cons_of_pos hw]
    exact length_dropWhile_le wsp cs
  have h2 : (trim (c :: cs)).length ≤ cs.length :=
    le_trans (rtrim_length_le _) h1
  rw [h] at h2
  simp at h2

theorem dropWhile_ne_nil_of_mem (p : Char → Bool) (l : Str) (a : Char)
    (ha : a ∈ l) (hp : p a = false) : l.dropWhile p ≠ [] := by
  induction l with
  | nil => simp at ha
  | cons x xs ih =>
    by_cases hx : p x = true
    · rw [List.dropWhile_cons_of_pos hx]
      apply ih
      rcases List.mem_cons.mp ha with h | h
      · subst h; rw [hx] at hp; exact absurd hp (by simp)
      · exact h
    · rw [List.dropWhile_cons_of_neg hx]
      simp

theorem wordPath_wb (post : Str) (maxLen : Int) (ht : trim post = post) :
    wordBoundary post (trim (accWords maxLen (splitSp post) [])) := by
  rcases hpost : post with _ | ⟨c, cs⟩
  · left
    have hz : accWords maxLen (splitSp []) [] = [] := by
      show accWords maxLen [[]] [] = []
      simp [accWords]
    rw [hz]
    rfl
  · rw [hpost] at ht
    have hcw : wsp c = false := trim_head_not_wsp c cs ht
    have hcne : ¬ c = ' ' := by
      intro he
      rw [he] at hcw
      exact absurd hcw (by decide)
    obtain ⟨w, ws, hsplit, _⟩ := splitSp_cons_of_ne c cs hcne
    rw [hsplit]
    rw [accWords]
    have htest : (([] : Str) ++ (if ([] : Str) = [] then ([] : Str) else [' ']) ++ (c :: w))
        = c :: w := by simp
    rw [htest]
    by_cases hl : (((c :: w)).length : Int) ≤ maxLen
    · rw [if_pos hl]
      have hpj : (c :: cs) = (c :: w) ++ joinTail ws := by
        have := joinSp_splitSp (c :: cs)
        rw [hsplit, joinSp_cons] at this
        exact this.symm
      obtain ⟨rest, hpe, hrest⟩ :=
        accWords_wb (c :: cs) maxLen ws (c :: w) (by simp) hpj
      obtain ⟨ext, hext⟩ := accWords_ext maxLen ws (c :: w)
      have hr2 : accWords maxLen ws (c :: w) = c :: (w ++ ext) := by
        rw [hext]; rfl
      have hltrim : trim (accWords maxLen ws (c :: w)) = rtrim (accWords maxLen ws (c :: w)) := by
        rw [hr2]
        exact trim_eq_rtrim_of_head c (w ++ ext) hcw
      obtain ⟨t, hdec, htws⟩ := rtrim_decomp (accWords maxLen ws (c :: w))
      right
      refine ⟨t ++ rest, ?_, ?_⟩
      · rw [hltrim]
        calc (c :: cs) = accWords maxLen ws (c :: w) ++ rest := hpe
          _ = (rtrim (accWords maxLen ws (c :: w)) ++ t) ++ rest := by rw [← hdec]
          _ = rtrim (accWords maxLen ws (c :: w)) ++ (t ++ rest) := by
              rw [List.append_assoc]
      · cases t with
        | nil =>
          simp only [List.nil_append]
          exact hrest
        | cons x t2 =>
          exact Or.inr ⟨x, t2 ++ rest, by simp, htws x (List.mem_cons_self _ _)⟩
    · rw [if_neg hl]
      left
      rfl

/-- Counterexample to claim C5 as stated: in the text
"aaaa bbbb. cc." with budget 6, the second sentence " cc." (length 4)
fits within the budget, yet the truncation result is the non-empty text
"aaaa", which does not end at a sentence boundary: the loop stops at the
first sentence and never considers later ones. -/
theorem claim_C5_counterexample :
    ((("aaaa bbbb. cc.").toList.length : Int) > 6) ∧
    (∃ s ∈ splitSentences (("aaaa bbbb. cc.").toList), (s.length : Int) ≤ 6) ∧
    truncatePost (("aaaa bbbb. cc.").toList) 6 ≠ [] ∧
    endsTerm (truncatePost (("aaaa bbbb. cc.").toList) 6) = false := by
  decide

/-- Claim C5 as amended: whenever the truncation fallback runs on a
trimmed post that exceeds a non-negative budget, the result never exceeds
the budget; it ends at a sentence boundary whenever the FIRST sentence of
the text fits within the budget; and when no sentence fits first (or there
is no sentence at all) it ends at a word boundary of the text. -/
theorem claim_C5_amended (post : Str) (maxLen : Int)
    (ht : trim post = post) (h0 : 0 ≤ maxLen) (hex : maxLen < (post.length : Int)) :
    ((truncatePost post maxLen).length : Int) ≤ maxLen ∧
    (∀ s0, (splitSentences post).head? = some s0 → (s0.length : Int) ≤ maxLen →
      endsTerm (truncatePost post maxLen) = true) ∧
    ((∀ s0, (splitSentences post).head? = some s0 → maxLen < (s0.length : Int)) →
      wordBoundary post (truncatePost post maxLen)) := by
  refine ⟨truncatePost_le post maxLen h0, ?_, ?_⟩
  · intro s0 hs0 hfit
    have hsp2 : ∃ rest, splitSentences post = s0 :: rest := by
      cases h : splitSentences post with
      | nil => rw [h] at hs0; simp at hs0
      | cons s1 rest =>
        rw [h] at hs0
        simp only [List.head?_cons, Option.some_inj] at hs0
        exact ⟨rest, by rw [hs0]⟩
    obtain ⟨rest, hsp⟩ := hsp2
    · have hstep : accSentences maxLen (splitSentences post) []
          = accSentences maxLen rest s0 := by
        rw [hsp, accSentences, if_pos (by simpa using hfit)]
        simp only [List.nil_append]
      have hs0mem : s0 ∈ splitSentences post := by
        rw [hsp]; exact List.mem_cons_self _ _
      have hne0 : s0 ≠ [] :=
        endsTerm_ne_nil s0 (splitSentences_endsTerm post s0 hs0mem)
      have htne : accSentences maxLen (splitSentences post) [] ≠ [] := by
        rw [hstep]
        exact accSentences_ne_nil maxLen rest s0 hne0
      have hterm : endsTerm (accSentences maxLen (splitSentences post) []) = true := by
        rcases accSentences_cases maxLen (splitSentences post) []
            (splitSentences_endsTerm post) with h | h
        · exact absurd h htne
        · exact h
      have hrw : truncatePost post maxLen
          = trim (accSentences maxLen (splitSentences post) []) := by
        simp only [truncatePost]
        rw [if_pos htne]
      rw [hrw]
      exact (trim_endsTerm _ hterm).1
  · intro hno
    have htnil : accSentences maxLen (splitSentences post) [] = [] := by
      cases hsp : splitSentences post with
      | nil => rfl
      | cons s1 rest =>
        have hgt := hno s1 (by rw [hsp]; rfl)
        rw [accSentences, if_neg (by simp only [List.nil_append]; exact not_le.mpr hgt)]
    have hrw : truncatePost post maxLen = trim (accWords maxLen (splitSp post) []) := by
      simp only [truncatePost]
      rw [if_neg (by simp [htnil])]
    rw [hrw]
    exact wordPath_wb post maxLen ht

/-- Witness for the amended C5 at a concrete post and budget: in
"ab. cde fg." with budget 5 the first sentence "ab." fits, and the
truncation result indeed ends at a sentence boundary. -/
theorem claim_C5_amended_witness :
    (trim (("ab. cde fg.").toList) = ("ab. cde fg.").toList) ∧
    endsTerm (truncatePost (("ab. cde fg.").toList) 5) = true :=
  ⟨by decide,
   (claim_C5_amended (("ab. cde fg.").toList) 5 (by decide) (by decide) (by decide)).2.1
     (("ab.").toList) (by decide) (by decide)⟩

/-- Counterexample to claim C8 as stated: in the non-empty text
"aaaaaaa bb" with budget 2, the word "bb" (length 2) fits within the
budget, yet the truncation result is empty: the word loop stops at the
first word, which is too long. -/
theorem claim_C8_counterexample :
    (("aaaaaaa bb").toList ≠ ([] : Str)) ∧
    ((("aaaaaaa bb").toList.length : Int) > 2) ∧
    (∃ w ∈ splitSp (("aaaaaaa bb").toList), (w.length : Int) ≤ 2) ∧
    truncatePost (("aaaaaaa bb").toList) 2 = [] := by
  decide

/-- Claim C8 as amended: for every non-empty trimmed post text that the
truncation fallback processes, if the budget is at least the length of the
FIRST word of the text, the truncated result is non-empty. -/
theorem claim_C8_amended (post : Str) (maxLen : Int)
    (ht : trim post = post) (hne : post ≠ [])
    (hex : maxLen < (post.length : Int))
    (hw : (((splitSp post).headD []).length : Int) ≤ maxLen) :
    truncatePost post maxLen ≠ [] := by
  by_cases htnil : accSentences maxLen (splitSentences post) [] = []
  · have hrw : truncatePost post maxLen = trim (accWords maxLen (splitSp post) []) := by
      simp only [truncatePost]
      rw [if_neg (by simp [htnil])]
    rw [hrw]
    rcases hpost : post with _ | ⟨c, cs⟩
    · exact absurd hpost hne
    · rw [hpost] at ht
      have hcw : wsp c = false := trim_head_not_wsp c cs ht
      have hcne : ¬ c = ' ' := by
        intro he; rw [he] at hcw; exact absurd hcw (by decide)
      obtain ⟨w, ws, hsplit, _⟩ := splitSp_cons_of_ne c cs hcne
      rw [hpost, hsplit] at hw
      simp only [List.headD_cons] at hw
      rw [hsplit]
      rw [accWords]
      have htest : (([] : Str) ++ (if ([] : Str) = [] then ([] : Str) else [' ']) ++ (c :: w))
          = c :: w := by simp
      rw [htest, if_pos hw]
      obtain ⟨ext, hext⟩ := accWords_ext maxLen ws (c :: w)
      have hr2 : accWords maxLen ws (c :: w) = c :: (w ++ ext) := by
        rw [hext]; rfl
      rw [hr2, trim_eq_rtrim_of_head c (w ++ ext) hcw]
      unfold rtrim
      intro hcon
      rw [List.reverse_eq_nil_iff] at hcon
      exact dropWhile_ne_nil_of_mem wsp ((c :: (w ++ ext)).reverse) c (by simp) hcw hcon
  · have hrw : truncatePost post maxLen
        = trim (accSentences maxLen (splitSentences post) []) := by
      simp only [truncatePost]
      rw [if_pos htnil]
    rw [hrw]
    have hterm : endsTerm (accSentences maxLen (splitSentences post) []) = true := by
      rcases accSentences_cases maxLen (splitSentences post) []
          (splitSentences_endsTerm post) with h | h
      · exact absurd h htnil
      · exact h
    exact (trim_endsTerm _ hterm).2

/-- Witness for the amended C8 at a concrete post and budget: in
"hello world" with budget 7 the first word "hello" fits, and the
truncation result is non-empty. -/
theorem claim_C8_amended_witness :
    ((((splitSp (("hello world").toList)).headD []).length : Int) ≤ 7) ∧
    truncatePost (("hello world").toList) 7 ≠ [] :=
  ⟨by decide,
   claim_C8_amended (("hello world").toList) 7 (by decide) (by decide) (by decide)
     (by decide)⟩

theorem mget_mset_self {α : Type} (m : List (Str × α)) (k : Str) (v : α) :
    mget (mset m k v) k = some v := by
  induction m with
  | nil => simp [mset, mget]
  | cons q rest ih =>
    obtain ⟨k0, v0⟩ := q
    by_cases h : k0 = k
    · rw [mset, if_pos h, mget, if_pos rfl]
    · rw [mset, if_neg h, mget, if_neg h]
      exact ih

theorem mem_mset {α : Type} (m : List (Str × α)) (k : Str) (v : α) (p : Str × α)
    (hp : p ∈ mset m k v) : p ∈ m ∨ p = (k, v) := by
  induction m with
  | nil =>
    rw [mset] at hp
    exact Or.inr (List.mem_singleton.mp hp)
  | cons q rest ih =>
    obtain ⟨k0, v0⟩ := q
    by_cases h : k0 = k
    · rw [mset, if_pos h] at hp
      rcases List.mem_cons.mp hp with h2 | h2
      · exact Or.inr h2
      · exact Or.inl (List.mem_cons_of_mem _ h2)
    · rw [mset, if_neg h] at hp
      rcases List.mem_cons.mp hp with h2 | h2
      · exact Or.inl (by rw [h2]; exact List.mem_cons_self _ _)
      · rcases ih h2 with h3 | h3
        · exact Or.inl (List.mem_cons_of_mem _ h3)
        · exact Or.inr h3

theorem mem_mdel {α : Type} (m : List (Str × α)) (k : Str) (p : Str × α)
    (hp : p ∈ mdel m k) : p ∈ m := by
  induction m with
  | nil => rw [mdel] at hp; exact hp
  | cons q rest ih =>
    obtain ⟨k0, v0⟩ := q
    by_cases h : k0 = k
    · rw [mdel, if_pos h] at hp
      exact List.mem_cons_of_mem _ hp
    · rw [mdel, if_neg h] at hp
      rcases List.mem_cons.mp hp with h2 | h2
      · rw [h2]; exact List.mem_cons_self _ _
      · exact List.mem_cons_of_mem _ (ih h2)

theorem mget_mem {α : Type} (m : List (Str × α)) (k : Str) (v : α)
    (h : mget m k = some v) : (k, v) ∈ m := by
  induction m with
  | nil => rw [mget] at h; exact absurd h (by simp)
  | cons q rest ih =>
    obtain ⟨k0, v0⟩ := q
    by_cases hk : k0 = k
    · rw [mget, if_pos hk] at h
      injection h with h2
      subst hk
      subst h2
      exact List.mem_cons_self _ _
    · rw [mget, if_neg hk] at h
      exact List.mem_cons_of_mem _ (ih h)

theorem selIndices_single (k : Int) (n : Nat) (h : ¬ (0 ≤ k - 1 ∧ k - 1 < (n : Int))) :
    selIndices [some k] n = [] := by
  simp only [selIndices, List.filterMap_cons, List.filterMap_nil]
  rw [if_neg h]

/-- Claim C6: selecting with an empty selection, a non-numeric token, the
index 0, or the index N+1 (where N is the number of listed commits) is
rejected with an invalid-selection error and leaves the session map
unchanged. -/
theorem claim_C6 (m : SMap) (uid : Str) (st : UserState) (sr pr : Except Str Str)
    (dflt : Str) (toks : List (Option Int))
    (hm : mget m uid = some st) (hc : ¬ st.commits = [])
    (htok : toks = [] ∨ toks = [none] ∨ toks = [some 0] ∨
      toks = [some ((st.commits.length : Int) + 1)]) :
    selectCmd m uid toks sr pr dflt = (m, SelOut.invalidSel) := by
  have hidx : selIndices toks st.commits.length = [] := by
    rcases htok with h | h | h | h <;> subst h
    · rfl
    · rfl
    · exact selIndices_single 0 st.commits.length (by omega)
    · exact selIndices_single ((st.commits.length : Int) + 1) st.commits.length (by omega)
  simp only [selectCmd, hm]
  rw [if_neg hc, hidx, if_pos rfl]

/-- Witness for C6 at a concrete two-commit session and all four rejected
inputs. -/
theorem claim_C6_witness :
    selectCmd mRun uA [] (Except.ok (("s").toList)) (Except.ok (("p").toList)) dfltA
        = (mRun, SelOut.invalidSel) ∧
    selectCmd mRun uA [none] (Except.ok (("s").toList)) (Except.ok (("p").toList)) dfltA
        = (mRun, SelOut.invalidSel) ∧
    selectCmd mRun uA [some 0] (Except.ok (("s").toList)) (Except.ok (("p").toList)) dfltA
        = (mRun, SelOut.invalidSel) ∧
    selectCmd mRun uA [some 3] (Except.ok (("s").toList)) (Except.ok (("p").toList)) dfltA
        = (mRun, SelOut.invalidSel) :=
  ⟨claim_C6 mRun uA stListed _ _ dfltA [] (by decide) (by decide) (Or.inl rfl),
   claim_C6 mRun uA stListed _ _ dfltA [none] (by decide) (by decide) (Or.inr (Or.inl rfl)),
   claim_C6 mRun uA stListed _ _ dfltA [some 0] (by decide) (by decide)
     (Or.inr (Or.inr (Or.inl rfl))),
   claim_C6 mRun uA stListed _ _ dfltA [some 3] (by decide) (by decide)
     (Or.inr (Or.inr (Or.inr (by decide))))⟩

/-- Claim C10: a selection mixing one in-range index with an out-of-range
index silently drops the invalid entry and proceeds with the valid subset,
mutating the session and storing a draft. -/
theorem claim_C10 (m : SMap) (uid : Str) (st : UserState) (c : CommitInfo)
    (cs : List CommitInfo) (s p dflt : Str)
    (hm : mget m uid = some st) (hc : st.commits = c :: cs) :
    selectCmd m uid [some 1, some ((st.commits.length : Int) + 1)]
        (Except.ok s) (Except.ok p) dflt =
      (mset m uid { st with
        selectedCommits := [c], generatedSummary := some s,
        projectName := some (projectOf [c] dflt), generatedPost := some p,
        pendingPost := true }, SelOut.drafted) := by
  have hpos : (0 : Int) ≤ 1 - 1 ∧ (1 : Int) - 1 < (st.commits.length : Int) := by
    rw [hc]
    simp
  have hidx : selIndices [some 1, some ((st.commits.length : Int) + 1)] st.commits.length
      = [0] := by
    simp only [selIndices, List.filterMap_cons, List.filterMap_nil]
    rw [if_pos hpos, if_neg (by omega)]
    norm_num
  have hsel : (selIndices [some 1, some ((st.commits.length : Int) + 1)]
      st.commits.length).filterMap (fun i => st.commits.get? i.toNat) = [c] := by
    rw [hidx, hc]
    simp
  simp only [selectCmd, hm]
  rw [if_neg (by rw [hc]; simp), hidx, if_neg (by simp), ← hidx, hsel]

/-- Witness for C10 at a concrete two-commit session: `!repo 1,3` keeps
index 1 and drops index 3. -/
theorem claim_C10_witness :
    selectCmd mRun uA [some 1, some ((stListed.commits.length : Int) + 1)]
        (Except.ok (("s").toList)) (Except.ok (("p").toList)) dfltA =
      (mset mRun uA { stListed with
        selectedCommits := [cA],
        generatedSummary := some (("s").toList),
        projectName := some (projectOf [cA] dfltA),
        generatedPost := some (("p").toList),
        pendingPost := true }, SelOut.drafted) :=
  claim_C10 mRun uA stListed cA [cB] (("s").toList) (("p").toList) dfltA
    (by decide) (by decide)

/-- Counterexample to claim C4 as stated: starting from the session left
by a successful `!repo 1` (selection `[cA]`, `pendingPost = true`), a
`!repo 2` whose summarizer call fails reports the error but leaves the
session MUTATED: the stored selection is now `[cB]` and `pendingPost` is
`false`, so the session state is not unchanged. -/
theorem claim_C4_counterexample :
    (selectCmd mSel uA [some 2] (Except.error (("boom").toList))
        (Except.ok (("postX").toList)) dfltA).2 = SelOut.sumErr (("boom").toList) ∧
    mget mSel uA = some stSel ∧
    mget mSelFail uA = some stSelFail ∧
    stSelFail.selectedCommits ≠ stSel.selectedCommits ∧
    stSelFail.pendingPost = false ∧
    stSel.pendingPost = true := by
  decide

/-- Claim C4 as amended: when an external call fails during a valid
selection, the failure is reported and no new draft text is stored
(`generatedPost` is untouched and `pendingPost` is not set), but the
mutations made before the failing call persist: the new selection is
stored and `pendingPost` is cleared, and on a composer failure the new
summary and project name are stored as well. -/
theorem claim_C4_amended (m : SMap) (uid : Str) (st : UserState)
    (toks : List (Option Int)) (dflt : Str)
    (hm : mget m uid = some st) (hc : ¬ st.commits = [])
    (hidx : ¬ selIndices toks st.commits.length = []) :
    (∀ e pr, selectCmd m uid toks (Except.error e) pr dflt =
      (mset m uid { st with
        selectedCommits := (selIndices toks st.commits.length).filterMap
          (fun i => st.commits.get? i.toNat),
        pendingPost := false }, SelOut.sumErr e)) ∧
    (∀ s e, selectCmd m uid toks (Except.ok s) (Except.error e) dflt =
      (mset m uid { st with
        selectedCommits := (selIndices toks st.commits.length).filterMap
          (fun i => st.commits.get? i.toNat),
        pendingPost := false,
        generatedSummary := some s,
        projectName := some (projectOf ((selIndices toks st.commits.length).filterMap
          (fun i => st.commits.get? i.toNat)) dflt) }, SelOut.postErr e)) := by
  constructor
  · intro e pr
    simp only [selectCmd, hm]
    rw [if_neg hc, if_neg hidx]
  · intro s e
    simp only [selectCmd, hm]
    rw [if_neg hc, if_neg hidx]

/-- Witness for the amended C4 at the concrete failing `!repo 2`. -/
theorem claim_C4_amended_witness :
    selectCmd mSel uA [some 2] (Except.error (("boom").toList))
        (Except.ok (("postX").toList)) dfltA =
      (mset mSel uA { stSel with
        selectedCommits := (selIndices [some 2] stSel.commits.length).filterMap
          (fun i => stSel.commits.get? i.toNat),
        pendingPost := false }, SelOut.sumErr (("boom").toList)) :=
  (claim_C4_amended mSel uA stSel [some 2] dfltA (by decide) (by decide) (by decide)).1
    (("boom").toList) (Except.ok (("postX").toList))

/-- Counterexample to claim C3 as stated: the session stored after the
failed `!repo 2` has `pendingPost = false` but still carries the old
generated post, and `!post` publishes it anyway: the publish gate is
`generatedPost`, not `pendingPost`. -/
theorem claim_C3_counterexample :
    mget mSelFail uA = some stSelFail ∧
    stSelFail.pendingPost = false ∧
    (postCmd mSelFail uA chA (Except.ok ())).sentToPublisher
      = some (("post1").toList) ∧
    (postCmd mSelFail uA chA (Except.ok ())).out = PostOut.posted := by
  decide

theorem postCmd_resolve (m : SMap) (uid chan : Str) (pubRes : Except Str Unit) :
    postCmd m uid chan pubRes =
      match resolvePost m uid chan, pubRes with
      | none, _ => ⟨m, PostOut.noPost, none⟩
      | some (k, st), Except.ok _ => ⟨mdel m k, PostOut.posted, st.generatedPost⟩
      | some (k, st), Except.error e => ⟨m, PostOut.pubFailed e, st.generatedPost⟩ := by
  simp only [postCmd, postAuto, resolvePost, resolveAuto]
  cases hu : mget m uid with
  | none =>
    cases ha : mget m (autoKey chan) with
    | none => cases pubRes <;> rfl
    | some ast =>
      dsimp only
      by_cases hg : optTruthy ast.generatedPost
      · rw [if_pos hg, if_pos hg]
        cases pubRes <;> rfl
      · rw [if_neg hg, if_neg hg]
  | some st =>
    dsimp only
    by_cases hg : optTruthy st.generatedPost
    · rw [if_pos hg, if_pos hg]
      cases pubRes <;> rfl
    · rw [if_neg hg, if_neg hg]
      cases ha : mget m (autoKey chan) with
      | none => cases pubRes <;> rfl
      | some ast =>
        dsimp only
        by_cases hg2 : optTruthy ast.generatedPost
        · rw [if_pos hg2, if_pos hg2]
          cases pubRes <;> rfl
        · rw [if_neg hg2, if_neg hg2]

/-- Claim C3 as amended: `!post` publishes exactly when the resolved
session (user-keyed first, else the channel's auto session) has a truthy
`generatedPost` — the gate is the generated post, not `pendingPost`.
With no such session it is a no-op: the publisher is not called and the
session map is unchanged.  On publisher success the resolved session is
deleted; on publisher failure the session map is left untouched so the
user may retry or discard. -/
theorem claim_C3_amended (m : SMap) (uid chan : Str) (pubRes : Except Str Unit) :
    (resolvePost m uid chan = none →
      postCmd m uid chan pubRes = ⟨m, PostOut.noPost, none⟩) ∧
    (∀ k st, resolvePost m uid chan = some (k, st) →
      (postCmd m uid chan pubRes).sentToPublisher = st.generatedPost ∧
      (pubRes = Except.ok () →
        postCmd m uid chan pubRes = ⟨mdel m k, PostOut.posted, st.generatedPost⟩) ∧
      (∀ e, pubRes = Except.error e →
        postCmd m uid chan pubRes = ⟨m, PostOut.pubFailed e, st.generatedPost⟩)) := by
  constructor
  · intro hres
    rw [postCmd_resolve, hres]
  · intro k st hres
    refine ⟨?_, ?_, ?_⟩
    · rw [postCmd_resolve, hres]
      cases pubRes <;> rfl
    · intro hok
      subst hok
      rw [postCmd_resolve, hres]
    · intro e herr
      subst herr
      rw [postCmd_resolve, hres]

/-- Witness for the amended C3: on the concrete drafted session, `!post`
with a succeeding publisher sends the stored post and deletes the
session. -/
theorem claim_C3_amended_witness :
    resolvePost mSel uA chA = some (uA, stSel) ∧
    postCmd mSel uA chA (Except.ok ())
      = ⟨mdel mSel uA, PostOut.posted, stSel.generatedPost⟩ :=
  ⟨by decide,
   (((claim_C3_amended mSel uA chA (Except.ok ())).2 uA stSel (by decide)).2.1) rfl⟩

/-- Claim C2: on a poll tick, a repository with an absent watermark entry
has its observed hash recorded and no draft attempt is made and nothing is
announced; on a tick where the stored watermark is present and differs
from the observed hash, the watermark is updated and exactly one
auto-draft session is stored (with `pendingPost = true`) and announced for
that repository, provided the summarizer and composer succeed. -/
theorem claim_C2 (wm : List (Str × Str)) (m : SMap) (chan dflt : Str)
    (res : CommitInfo → Except Str Str × Except Str Str) (c : CommitInfo) :
    (mget wm c.repo = none →
      tick chan dflt res [c] wm m = ⟨mset wm c.repo c.sha, m, [], []⟩) ∧
    (∀ s su po, mget wm c.repo = some s → ¬ s = c.sha →
      res c = (Except.ok su, Except.ok po) →
      tick chan dflt res [c] wm m =
        ⟨mset wm c.repo c.sha,
         mset m (autoKey chan)
           { commits := [c], selectedCommits := [c], generatedSummary := some su,
             generatedPost := some po, projectName := some (projectOf [c] dflt),
             pendingPost := true },
         [c.repo], [c.repo]⟩) := by
  constructor
  · intro h
    simp only [tick, tickGo, h]
  · intro s su po hs hne hres
    simp only [tick, tickGo, hs]
    rw [if_neg hne]
    simp only [hres, processNewCommit]
    rfl

/-- Witness for C2: with an empty watermark map the observation of `cA`
seeds the watermark without drafting; with a stale watermark it drafts and
announces exactly once. -/
theorem claim_C2_witness :
    tick chA dfltA resOk [cA] wmA [] = ⟨mset wmA cA.repo cA.sha, [], [], []⟩ ∧
    tick chA dfltA resOk [cA] wmB [] =
      ⟨mset wmB cA.repo cA.sha,
       mset [] (autoKey chA)
         { commits := [cA], selectedCommits := [cA],
           generatedSummary := some (("su").toList),
           generatedPost := some (("po").toList),
           projectName := some (projectOf [cA] dfltA),
           pendingPost := true },
       [cA.repo], [cA.repo]⟩ :=
  ⟨(claim_C2 wmA [] chA dfltA resOk cA).1 (by decide),
   (claim_C2 wmB [] chA dfltA resOk cA).2 (("0000000").toList) (("su").toList)
     (("po").toList) (by decide) (by decide) rfl⟩

/-- Claim C9: when the poller observes a hash that differs from the
stored watermark, the watermark is advanced no matter what the
summarizer/composer outcomes are (the new watermark map does not depend
on them), exactly one draft attempt is made for that repository, and a
later tick observing the same hash against the advanced watermark makes
no further attempt: each observed hash triggers at most one draft
attempt. -/
theorem claim_C9 (wm : List (Str × Str)) (m m2 : SMap) (chan dflt : Str)
    (res res2 res3 : CommitInfo → Except Str Str × Except Str Str) (c : CommitInfo)
    (s : Str) (hs : mget wm c.repo = some s) (hne : ¬ s = c.sha) :
    (tick chan dflt res [c] wm m).wm = mset wm c.repo c.sha ∧
    (tick chan dflt res [c] wm m).attempts = [c.repo] ∧
    (tick chan dflt res [c] wm m).wm = (tick chan dflt res2 [c] wm m).wm ∧
    (tick chan dflt res3 [c] (tick chan dflt res [c] wm m).wm m2).attempts = [] := by
  have h1 : ∀ r : CommitInfo → Except Str Str × Except Str Str,
      (tick chan dflt r [c] wm m).wm = mset wm c.repo c.sha ∧
      (tick chan dflt r [c] wm m).attempts = [c.repo] := by
    intro r
    simp only [tick, tickGo, hs]
    rw [if_neg hne]
    exact ⟨rfl, rfl⟩
  refine ⟨(h1 res).1, (h1 res).2, by rw [(h1 res).1, (h1 res2).1], ?_⟩
  rw [(h1 res).1]
  simp only [tick, tickGo, mget_mset_self]
  simp

/-- Witness for C9 at the concrete stale watermark, with a failing
provider on the first tick. -/
theorem claim_C9_witness :
    (tick chA dfltA (fun _ => (Except.error (("down").toList), Except.ok (("po").toList)))
        [cA] wmB []).wm = mset wmB cA.repo cA.sha ∧
    (tick chA dfltA (fun _ => (Except.error (("down").toList), Except.ok (("po").toList)))
        [cA] wmB []).attempts = [cA.repo] ∧
    (tick chA dfltA (fun _ => (Except.error (("down").toList), Except.ok (("po").toList)))
        [cA] wmB []).wm = (tick chA dfltA resOk [cA] wmB []).wm ∧
    (tick chA dfltA resOk [cA]
        (tick chA dfltA (fun _ => (Except.error (("down").toList), Except.ok (("po").toList)))
          [cA] wmB []).wm []).attempts = [] :=
  claim_C9 wmB [] [] chA dfltA
    (fun _ => (Except.error (("down").toList), Except.ok (("po").toList))) resOk resOk cA
    (("0000000").toList) (by decide) (by decide)

theorem ValOk_of_false (st : UserState) (h : st.pendingPost = false) : ValOk st := by
  intro hp
  rw [h] at hp
  exact absurd hp (by simp)

theorem ValOk_of_some (st : UserState) (p : Str) (h : st.generatedPost = some p) :
    ValOk st := by
  intro _
  rw [h]
  simp

theorem MInv_mset (m : SMap) (k : Str) (v : UserState) (hm : MInv m) (hv : ValOk v) :
    MInv (mset m k v) := by
  intro p hp
  rcases mem_mset m k v p hp with h | h
  · exact hm p h
  · rw [h]
    exact hv

theorem MInv_mdel (m : SMap) (k : Str) (hm : MInv m) : MInv (mdel m k) :=
  fun p hp => hm p (mem_mdel m k p hp)

theorem runCmd_inv (m : SMap) (uid : Str) (fr : Except Str (List CommitInfo))
    (h : MInv m) : MInv (runCmd m uid fr).1 := by
  simp only [runCmd]
  cases fr with
  | error e => exact h
  | ok commits =>
    dsimp only
    split
    · exact h
    · exact MInv_mset _ _ _ h (ValOk_of_false _ rfl)

theorem selectCmd_inv (m : SMap) (uid : Str) (toks : List (Option Int))
    (sr pr : Except Str Str) (dflt : Str) (h : MInv m) :
    MInv (selectCmd m uid toks sr pr dflt).1 := by
  simp only [selectCmd]
  cases hm : mget m uid with
  | none => exact h
  | some st =>
    dsimp only
    split
    · exact h
    · split
      · exact h
      · cases sr with
        | error e => exact MInv_mset _ _ _ h (ValOk_of_false _ rfl)
        | ok summary =>
          cases pr with
          | error e => exact MInv_mset _ _ _ h (ValOk_of_false _ rfl)
          | ok post => exact MInv_mset _ _ _ h (ValOk_of_some _ post rfl)

theorem regen_inv (m : SMap) (key : Str) (st : UserState) (pr : Except Str Str)
    (h : MInv m) : MInv (regen m key st pr).1 := by
  simp only [regen]
  split
  · exact h
  · cases pr with
    | error e => exact h
    | ok p => exact MInv_mset _ _ _ h (ValOk_of_some _ p rfl)

theorem redoAuto_inv (m : SMap) (chan : Str) (pr : Except Str Str) (h : MInv m) :
    MInv (redoAuto m chan pr).1 := by
  simp only [redoAuto]
  cases mget m (autoKey chan) with
  | none => exact h
  | some ast =>
    dsimp only
    split
    · exact regen_inv _ _ _ _ h
    · exact h

theorem redoCmd_inv (m : SMap) (uid chan : Str) (pr : Except Str Str) (h : MInv m) :
    MInv (redoCmd m uid chan pr).1 := by
  simp only [redoCmd]
  cases mget m uid with
  | none => exact redoAuto_inv _ _ _ h
  | some st =>
    dsimp only
    split
    · exact regen_inv _ _ _ _ h
    · exact redoAuto_inv _ _ _ h

theorem noAuto_inv (m : SMap) (chan : Str) (h : MInv m) : MInv (noAuto m chan).1 := by
  simp only [noAuto]
  cases mget m (autoKey chan) with
  | none => exact h
  | some ast => exact MInv_mdel _ _ h

theorem noCmd_inv (m : SMap) (uid chan : Str) (h : MInv m) :
    MInv (noCmd m uid chan).1 := by
  simp only [noCmd]
  cases mget m uid with
  | none => exact noAuto_inv _ _ h
  | some st =>
    dsimp only
    split
    · exact MInv_mdel _ _ h
    · exact noAuto_inv _ _ h

theorem postAuto_inv (m : SMap) (chan : Str) (pubRes : Except Str Unit) (h : MInv m) :
    MInv (postAuto m chan pubRes).sessions := by
  simp only [postAuto]
  cases mget m (autoKey chan) with
  | none => exact h
  | some ast =>
    dsimp only
    split
    · cases pubRes with
      | ok u => exact MInv_mdel _ _ h
      | error e => exact h
    · exact h

theorem postCmd_inv (m : SMap) (uid chan : Str) (pubRes : Except Str Unit)
    (h : MInv m) : MInv (postCmd m uid chan pubRes).sessions := by
  simp only [postCmd]
  cases mget m uid with
  | none => exact postAuto_inv _ _ _ h
  | some st =>
    dsimp only
    split
    · cases pubRes with
      | ok u => exact MInv_mdel _ _ h
      | error e => exact h
    · exact postAuto_inv _ _ _ h

theorem processNewCommit_inv (m : SMap) (chan : Str) (c : CommitInfo)
    (sr pr : Except Str Str) (dflt : Str) (h : MInv m) :
    MInv (processNewCommit m chan c sr pr dflt).1 := by
  simp only [processNewCommit]
  cases sr with
  | error e => exact h
  | ok su =>
    cases pr with
    | error e => exact h
    | ok po => exact MInv_mset _ _ _ h (ValOk_of_some _ po rfl)

theorem tickGo_inv (chan dflt : Str) (res : CommitInfo → Except Str Str × Except Str Str)
    (obs : List CommitInfo) : ∀ wm m, MInv m → MInv (tickGo chan dflt res obs wm m).sessions := by
  induction obs with
  | nil => intro wm m h; exact h
  | cons c cs ih =>
    intro wm m h
    simp only [tickGo]
    cases mget wm c.repo with
    | none => exact ih _ _ h
    | some lastSha =>
      dsimp only
      split
      · exact ih _ _ h
      · exact ih _ _ (processNewCommit_inv _ _ _ _ _ _ h)

/-- Claim C7: in every session map reachable from startup by any sequence
of command-handler and poller steps, `pendingPost = true` implies
`generatedPost` is non-null for every stored session. -/
theorem claim_C7 (m : SMap) (hr : Reach m) :
    ∀ k st, mget m k = some st → st.pendingPost = true → st.generatedPost ≠ none := by
  have hm : MInv m := by
    induction hr with
    | init => intro p hp; exact absurd hp (by simp)
    | runStep m uid fr _ ih => exact runCmd_inv m uid fr ih
    | selStep m uid tokens sr pr dflt _ ih => exact selectCmd_inv m uid tokens sr pr dflt ih
    | redoStep m uid chan pr _ ih => exact redoCmd_inv m uid chan pr ih
    | noStep m uid chan _ ih => exact noCmd_inv m uid chan ih
    | postStep m uid chan pub _ ih => exact postCmd_inv m uid chan pub ih
    | tickStep m wm chan dflt res obs _ ih => exact tickGo_inv chan dflt res obs wm m ih
  intro k st hk hp
  exact hm (k, st) (mget_mem m k st hk) hp

/-- Witness for C7 on the concrete reachable map `mSel` (empty map, then
`!run`, then `!repo 1`): its drafted session has `pendingPost = true` and
a non-null `generatedPost`. -/
theorem claim_C7_witness :
    mget mSel uA = some stSel ∧ stSel.pendingPost = true ∧
      stSel.generatedPost ≠ none :=
  ⟨by decide, by decide,
   claim_C7 mSel
     (Reach.selStep mRun uA [some 1] (Except.ok (("sum1").toList))
       (Except.ok (("post1").toList)) dfltA
       (Reach.runStep [] uA (Except.ok [cA, cB]) Reach.init))
     uA stSel (by decide) (by decide)⟩
